import Mathlib

/-!
Shallow embedding of the LSMLIB numerical core (level-set-method toolbox).

Grid fields are modelled as total functions from integer indices to exact
rationals; an operator that writes only part of an array is modelled as a
function from the previous array contents to the new contents, so that
"cells never written" is expressed as equality with the previous contents.
The repository ships only the C prototypes of the Fortran kernels, so the
kernel bodies are modelled from the specification (each such definition says
so in its doc comment); the C headers themselves (argument lists, const
qualifiers, documented formulas) are embedded from the source.
-/

namespace LSMLIB

/-- One-dimensional index box: the closed integer range from lo to hi. -/
structure Box1 where
  lo : ℤ
  hi : ℤ
deriving DecidableEq

/-- Membership of an index in a 1-D box. -/
def Box1.mem (b : Box1) (i : ℤ) : Bool :=
  decide (b.lo ≤ i) && decide (i ≤ b.hi)

/-- Two-dimensional index box [ilo..ihi] x [jlo..jhi]. -/
structure Box2 where
  ilo : ℤ
  ihi : ℤ
  jlo : ℤ
  jhi : ℤ
deriving DecidableEq

/-- Membership of a cell in a 2-D box. -/
def Box2.mem (b : Box2) (p : ℤ × ℤ) : Bool :=
  decide (b.ilo ≤ p.1) && decide (p.1 ≤ b.ihi) &&
  decide (b.jlo ≤ p.2) && decide (p.2 ≤ b.jhi)

/-- A formal C parameter: its identifier and whether the header declares the
pointed-to data const.  Used to embed the argument lists of the kernel
prototypes that appear in the source headers. -/
structure CParam where
  ident : String
  isConst : Bool
deriving DecidableEq

/-- Embedded from the source (lsm_level_set_evolution2d.h, declaration of
LSM2D_ADD_CONST_CURV_TERM_TO_LSE_RHS): the parameter list with the const
qualifier of each pointer parameter exactly as declared. -/
def LSM2D_ADD_CONST_CURV_TERM_TO_LSE_RHS_params : List CParam :=
  [⟨"lse_rhs", true⟩,
   ⟨"ilo_lse_rhs_gb", true⟩, ⟨"ihi_lse_rhs_gb", true⟩,
   ⟨"jlo_lse_rhs_gb", true⟩, ⟨"jhi_lse_rhs_gb", true⟩,
   ⟨"phi_x", true⟩, ⟨"phi_y", true⟩,
   ⟨"ilo_grad_phi_gb", true⟩, ⟨"ihi_grad_phi_gb", true⟩,
   ⟨"jlo_grad_phi_gb", true⟩, ⟨"jhi_grad_phi_gb", true⟩,
   ⟨"phi_xx", true⟩, ⟨"phi_xy", true⟩, ⟨"phi_yy", true⟩,
   ⟨"ilo_grad2_phi_gb", true⟩, ⟨"ihi_grad2_phi_gb", true⟩,
   ⟨"jlo_grad2_phi_gb", true⟩, ⟨"jhi_grad2_phi_gb", true⟩,
   ⟨"b", true⟩,
   ⟨"ilo_fb", true⟩, ⟨"ihi_fb", true⟩, ⟨"jlo_fb", true⟩, ⟨"jhi_fb", true⟩]

/-- Embedded from the source (same header, doc comment of
LSM2D_ADD_CONST_CURV_TERM_TO_LSE_RHS): the documented direction of the
lse_rhs argument. -/
def LSM2D_ADD_CONST_CURV_TERM_TO_LSE_RHS_lse_rhs_doc : String := "in/out"

/-- A parameter of a kernel prototype admits writes through it iff it is
declared without the const qualifier. -/
def paramIsWritable (ps : List CParam) (s : String) : Bool :=
  match ps.find? (fun a => a.ident == s) with
  | some a => !a.isConst
  | none => false

/-- Pair of 2-D output component arrays (an x-component and a y-component). -/
structure Grad2 where
  x : ℤ × ℤ → ℚ
  y : ℤ × ℤ → ℚ

/-- The four one-sided 2-D gradient component arrays. -/
structure Grad2PM where
  xPlus : ℤ × ℤ → ℚ
  yPlus : ℤ × ℤ → ℚ
  xMinus : ℤ × ℤ → ℚ
  yMinus : ℤ × ℤ → ℚ

/-- Modelled from the spec (the Fortran body of lsm2daveragegradphi is not in
the source tree; the formula is the one documented in the source header
lsm_spatial_derivatives2d.h for LSM2D_AVERAGE_GRAD_PHI): write the
componentwise mean of the plus and minus one-sided gradients at every
fill-box cell; cells outside the fill box keep the previous output values. -/
def LSM2D_AVERAGE_GRAD_PHI (gradPM : Grad2PM) (fb : Box2) (out : Grad2) :
    Grad2 where
  x := fun p => if fb.mem p then (gradPM.xPlus p + gradPM.xMinus p) / 2 else out.x p
  y := fun p => if fb.mem p then (gradPM.yPlus p + gradPM.yMinus p) / 2 else out.y p

/-- Modelled from the spec: undivided first difference of phi along x, stored
at index i for the face i-1/2 (D1(i) = phi(i) - phi(i-1)). -/
def D1x (phi : ℤ × ℤ → ℚ) (p : ℤ × ℤ) : ℚ := phi p - phi (p.1 - 1, p.2)

/-- Modelled from the spec: undivided first difference of phi along y. -/
def D1y (phi : ℤ × ℤ → ℚ) (p : ℤ × ℤ) : ℚ := phi p - phi (p.1, p.2 - 1)

/-- Modelled from the spec: first-order HJ-ENO backward (minus) x-derivative,
D1(i)/dx. -/
def hjENO1minusX (phi : ℤ × ℤ → ℚ) (dx : ℚ) (p : ℤ × ℤ) : ℚ := D1x phi p / dx

/-- Modelled from the spec: first-order HJ-ENO forward (plus) x-derivative,
D1(i+1)/dx. -/
def hjENO1plusX (phi : ℤ × ℤ → ℚ) (dx : ℚ) (p : ℤ × ℤ) : ℚ :=
  D1x phi (p.1 + 1, p.2) / dx

/-- Modelled from the spec: first-order HJ-ENO backward (minus) y-derivative. -/
def hjENO1minusY (phi : ℤ × ℤ → ℚ) (dy : ℚ) (p : ℤ × ℤ) : ℚ := D1y phi p / dy

/-- Modelled from the spec: first-order HJ-ENO forward (plus) y-derivative. -/
def hjENO1plusY (phi : ℤ × ℤ → ℚ) (dy : ℚ) (p : ℤ × ℤ) : ℚ :=
  D1y phi (p.1, p.2 + 1) / dy

/-- Modelled from the spec (the Fortran body of lsm2dhjeno1 is not in the
source tree): the plus/minus first-order HJ-ENO operator writes all four
one-sided derivative components at every fill-box cell; cells outside the
fill box keep the previous output values. -/
def LSM2D_HJ_ENO1 (phi : ℤ × ℤ → ℚ) (dx dy : ℚ) (fb : Box2) (out : Grad2PM) :
    Grad2PM where
  xPlus := fun p => if fb.mem p then hjENO1plusX phi dx p else out.xPlus p
  yPlus := fun p => if fb.mem p then hjENO1plusY phi dy p else out.yPlus p
  xMinus := fun p => if fb.mem p then hjENO1minusX phi dx p else out.xMinus p
  yMinus := fun p => if fb.mem p then hjENO1minusY phi dy p else out.yMinus p

/-- Modelled from the spec (the Fortran body of lsm2dupwindhjeno1 is not in
the source tree): the upwind first-order HJ-ENO operator chooses, per axis
and per fill-box cell, the one-sided derivative by the sign of the velocity
component: minus if the component is positive, plus if negative, and zero if
the component is zero; cells outside the fill box keep the previous output
values. -/
def LSM2D_UPWIND_HJ_ENO1 (phi : ℤ × ℤ → ℚ) (vel_x vel_y : ℤ × ℤ → ℚ)
    (dx dy : ℚ) (fb : Box2) (out : Grad2) : Grad2 where
  x := fun p =>
    if fb.mem p then
      if 0 < vel_x p then hjENO1minusX phi dx p
      else if vel_x p < 0 then hjENO1plusX phi dx p
      else 0
    else out.x p
  y := fun p =>
    if fb.mem p then
      if 0 < vel_y p then hjENO1minusY phi dy p
      else if vel_y p < 0 then hjENO1plusY phi dy p
      else 0
    else out.y p

/-- Modelled from the spec (the Fortran body of lsm1drk1step is not in the
source tree): a forward Euler step on the fill box; ghost cells of the
output keep the previous output values. -/
def LSM1D_RK1_STEP (u_cur rhs : ℤ → ℚ) (dt : ℚ) (fb : Box1) (u_next : ℤ → ℚ) :
    ℤ → ℚ :=
  fun i => if fb.mem i then u_cur i + dt * rhs i else u_next i

/-- Modelled from the spec (the Fortran body of lsm1dtvdrk2stage1 is not in
the source tree): first stage of TVD RK2, u_stage1 = u_cur + dt * rhs on the
fill box; ghost cells of the output keep the previous output values. -/
def LSM1D_TVD_RK2_STAGE1 (u_cur rhs : ℤ → ℚ) (dt : ℚ) (fb : Box1)
    (u_stage1 : ℤ → ℚ) : ℤ → ℚ :=
  fun i => if fb.mem i then u_cur i + dt * rhs i else u_stage1 i

/-- Modelled from the spec (the Fortran body of lsm1dtvdrk2stage2 is not in
the source tree): second stage of TVD RK2,
u_next = u_cur/2 + u_stage1/2 + dt*rhs/2 on the fill box, where rhs is the
right-hand side re-evaluated by the caller at u_stage1; ghost cells of the
output keep the previous output values. -/
def LSM1D_TVD_RK2_STAGE2 (u_stage1 u_cur rhs : ℤ → ℚ) (dt : ℚ) (fb : Box1)
    (u_next : ℤ → ℚ) : ℤ → ℚ :=
  fun i =>
    if fb.mem i then
      (1 / 2) * u_cur i + (1 / 2) * u_stage1 i + (1 / 2) * dt * rhs i
    else u_next i

/-- Maximum of the absolute value of a 3-D field over the narrow-band cells
whose mask tag does not exceed the fill threshold (0 when no cell
qualifies).  Modelled from the spec narrow-band discipline: only band cells
with mask at most mark_fb participate. -/
def maxAbsOnBand (f : ℤ × ℤ × ℤ → ℚ) (band : List (ℤ × ℤ × ℤ))
    (nb : ℤ × ℤ × ℤ → ℕ) (mark_fb : ℕ) : ℚ :=
  band.foldl (fun m p => if nb p ≤ mark_fb then max m |f p| else m) 0

/-- Modelled from the spec (the Fortran body of
lsm3dcomputestableadvectiondtlocal is not in the source tree): the
CFL-limited stable advection time step,
dt = cfl / (max|vel_x|/dx + max|vel_y|/dy + max|vel_z|/dz), with each
maximum taken over the narrow-band cells whose mask tag is at most
mark_fb. -/
def LSM3D_COMPUTE_STABLE_ADVECTION_DT_LOCAL (vel_x vel_y vel_z : ℤ × ℤ × ℤ → ℚ)
    (dx dy dz cfl_number : ℚ) (band : List (ℤ × ℤ × ℤ)) (nb : ℤ × ℤ × ℤ → ℕ)
    (mark_fb : ℕ) : ℚ :=
  cfl_number /
    (maxAbsOnBand vel_x band nb mark_fb / dx +
     maxAbsOnBand vel_y band nb mark_fb / dy +
     maxAbsOnBand vel_z band nb mark_fb / dz)

/-- Modelled from the spec: undivided second difference along x, stored at the
cell, D2(i) = (D1(i+1) - D1(i)) / 2 (the factor 1/2 folds the 2! of the
ENO reconstruction into the scratch value). -/
def D2x (phi : ℤ × ℤ → ℚ) (p : ℤ × ℤ) : ℚ :=
  (D1x phi (p.1 + 1, p.2) - D1x phi p) / 2

/-- Modelled from the spec: undivided second difference along y. -/
def D2y (phi : ℤ × ℤ → ℚ) (p : ℤ × ℤ) : ℚ :=
  (D1y phi (p.1, p.2 + 1) - D1y phi p) / 2

/-- Modelled from the spec: second-order HJ-ENO backward (minus) x-derivative.
The candidate second difference with strictly smaller absolute value is
preferred; on exact equality the downstream stencil is taken. -/
def hjENO2minusX (phi : ℤ × ℤ → ℚ) (dx : ℚ) (p : ℤ × ℤ) : ℚ :=
  (D1x phi p +
    (if |D2x phi (p.1 - 1, p.2)| < |D2x phi p| then D2x phi (p.1 - 1, p.2)
     else D2x phi p)) / dx

/-- Modelled from the spec: second-order HJ-ENO forward (plus) x-derivative. -/
def hjENO2plusX (phi : ℤ × ℤ → ℚ) (dx : ℚ) (p : ℤ × ℤ) : ℚ :=
  (D1x phi (p.1 + 1, p.2) -
    (if |D2x phi p| < |D2x phi (p.1 + 1, p.2)| then D2x phi p
     else D2x phi (p.1 + 1, p.2))) / dx

/-- Modelled from the spec: second-order HJ-ENO backward (minus) y-derivative. -/
def hjENO2minusY (phi : ℤ × ℤ → ℚ) (dy : ℚ) (p : ℤ × ℤ) : ℚ :=
  (D1y phi p +
    (if |D2y phi (p.1, p.2 - 1)| < |D2y phi p| then D2y phi (p.1, p.2 - 1)
     else D2y phi p)) / dy

/-- Modelled from the spec: second-order HJ-ENO forward (plus) y-derivative. -/
def hjENO2plusY (phi : ℤ × ℤ → ℚ) (dy : ℚ) (p : ℤ × ℤ) : ℚ :=
  (D1y phi (p.1, p.2 + 1) -
    (if |D2y phi p| < |D2y phi (p.1, p.2 + 1)| then D2y phi p
     else D2y phi (p.1, p.2 + 1))) / dy

/-- Modelled from the spec (the Fortran body of lsm2dhjeno2 is not in the
source tree): the global plus/minus second-order HJ-ENO operator writes all
four one-sided derivative components at every fill-box cell; cells outside
the fill box keep the previous output values.  The scratch arrays D1 and D2
hold pure functions of phi, so the written results are expressed directly in
terms of phi. -/
def LSM2D_HJ_ENO2 (phi : ℤ × ℤ → ℚ) (dx dy : ℚ) (fb : Box2) (out : Grad2PM) :
    Grad2PM where
  xPlus := fun p => if fb.mem p then hjENO2plusX phi dx p else out.xPlus p
  yPlus := fun p => if fb.mem p then hjENO2plusY phi dy p else out.yPlus p
  xMinus := fun p => if fb.mem p then hjENO2minusX phi dx p else out.xMinus p
  yMinus := fun p => if fb.mem p then hjENO2minusY phi dy p else out.yMinus p

/-- Write the four ENO2 one-sided derivatives at the single cell p, leaving
every other cell of the output arrays unchanged. -/
def eno2WriteAt (phi : ℤ × ℤ → ℚ) (dx dy : ℚ) (out : Grad2PM) (p : ℤ × ℤ) :
    Grad2PM where
  xPlus := fun q => if q = p then hjENO2plusX phi dx p else out.xPlus q
  yPlus := fun q => if q = p then hjENO2plusY phi dy p else out.yPlus q
  xMinus := fun q => if q = p then hjENO2minusX phi dx p else out.xMinus q
  yMinus := fun q => if q = p then hjENO2minusY phi dy p else out.yMinus q

/-- Modelled from the spec (the Fortran body of lsm2dhjeno2local is not in
the source tree): the narrow-band second-order HJ-ENO operator iterates over
the caller-supplied index list and writes results only at points whose mask
tag is at most mark_fb.  Scratch differences are recomputed on demand from
phi (the mark_D1/mark_D2 thresholds only control caching of the scratch
arrays, not the written results), so each written result is the same pure
function of phi that the global operator writes. -/
def LSM2D_HJ_ENO2_LOCAL (phi : ℤ × ℤ → ℚ) (dx dy : ℚ)
    (index_list : List (ℤ × ℤ)) (nb : ℤ × ℤ → ℕ) (mark_fb : ℕ)
    (out : Grad2PM) : Grad2PM :=
  index_list.foldl
    (fun acc p => if nb p ≤ mark_fb then eno2WriteAt phi dx dy acc p else acc)
    out

/-- Modelled from the spec (the implementation of
lsm1dhomogeneousneumanneno1 is not in the source tree): the homogeneous
Neumann ENO1 boundary writer copies the nearest interior cell into every
ghost cell outside the given face; bdry_location_idx 0 is the x-lower face
and 1 the x-upper face. -/
def LSM1D_HOMOGENEOUS_NEUMANN_ENO1 (phi : ℤ → ℚ) (gb fb : Box1)
    (bdry_location_idx : ℤ) : ℤ → ℚ :=
  fun i =>
    if bdry_location_idx = 0 then
      if gb.lo ≤ i ∧ i ≤ fb.lo - 1 then phi fb.lo else phi i
    else if bdry_location_idx = 1 then
      if fb.hi + 1 ≤ i ∧ i ≤ gb.hi then phi fb.hi else phi i
    else phi i

/-- Modelled from the spec: undivided first difference of a 1-D field,
D1(i) = phi(i) - phi(i-1). -/
def D1oned (phi : ℤ → ℚ) (i : ℤ) : ℚ := phi i - phi (i - 1)

/-- Modelled from the spec (the Fortran body of lsm1dhjeno1 is not in the
source tree): the 1-D plus/minus first-order HJ-ENO operator; on the fill
box phi_x_plus(i) = D1(i+1)/dx and phi_x_minus(i) = D1(i)/dx, and cells
outside the fill box keep the previous output values. -/
def LSM1D_HJ_ENO1 (phi : ℤ → ℚ) (dx : ℚ) (fb : Box1)
    (outPlus outMinus : ℤ → ℚ) : (ℤ → ℚ) × (ℤ → ℚ) :=
  (fun i => if fb.mem i then D1oned phi (i + 1) / dx else outPlus i,
   fun i => if fb.mem i then D1oned phi i / dx else outMinus i)

/-- Modelled from the spec: one axis of the squared Godunov-Hamiltonian
gradient norm, max(max(d-,0)^2, min(d+,0)^2) for nonnegative normal velocity
and max(min(d-,0)^2, max(d+,0)^2) for negative normal velocity. -/
def godunovAxisSq (vel_n dminus dplus : ℚ) : ℚ :=
  if 0 ≤ vel_n then max ((max dminus 0) ^ 2) ((min dplus 0) ^ 2)
  else max ((min dminus 0) ^ 2) ((max dplus 0) ^ 2)

/-- Modelled from the spec (the Fortran body of
lsm2daddnormalveltermtolserhs is not in the source tree): subtract
vel_n times the Godunov-Hamiltonian gradient norm from lse_rhs at every
fill-box cell; cells outside the fill box are untouched.  The machine
square root is supplied as the parameter sqrtA. -/
def LSM2D_ADD_NORMAL_VEL_TERM_TO_LSE_RHS (sqrtA : ℚ → ℚ) (lse_rhs : ℤ × ℤ → ℚ)
    (gradPM : Grad2PM) (vel_n : ℤ × ℤ → ℚ) (fb : Box2) : ℤ × ℤ → ℚ :=
  fun p =>
    if fb.mem p then
      lse_rhs p - vel_n p * sqrtA
        (godunovAxisSq (vel_n p) (gradPM.xMinus p) (gradPM.xPlus p) +
         godunovAxisSq (vel_n p) (gradPM.yMinus p) (gradPM.yPlus p))
    else lse_rhs p

/-- A fill box is interior to a ghost box by margin m when every face of the
ghost box is at least m cells away from the corresponding fill-box face. -/
def boxContainsWithMargin (gb fb : Box2) (m : ℤ) : Bool :=
  decide (gb.ilo + m ≤ fb.ilo) && decide (fb.ihi + m ≤ gb.ihi) &&
  decide (gb.jlo + m ≤ fb.jlo) && decide (fb.jhi + m ≤ gb.jhi)

/-- Modelled from the spec: the ENO2 precondition requires the fill box to be
interior to the ghost box of every output, input and scratch array by the
ENO2 stencil width 2. -/
def eno2Precondition (fb gb_plus gb_minus gb_phi gb_D1 gb_D2 : Box2) : Bool :=
  boxContainsWithMargin gb_plus fb 2 && boxContainsWithMargin gb_minus fb 2 &&
  boxContainsWithMargin gb_phi fb 2 && boxContainsWithMargin gb_D1 fb 2 &&
  boxContainsWithMargin gb_D2 fb 2

/-- A fatal precondition diagnostic raised by a numerical operator. -/
inductive OpDiag
  | fillBoxNotInterior
deriving DecidableEq

/-- Modelled from the spec (error-handling discipline of the operator
surface; the checking layer is not in the source tree): run the ENO2
operator only when its precondition holds; on a precondition failure return
the output arrays untouched together with a fatal diagnostic, so no partial
write ever happens. -/
def LSM2D_HJ_ENO2_CHECKED (phi : ℤ × ℤ → ℚ) (dx dy : ℚ)
    (fb gb_plus gb_minus gb_phi gb_D1 gb_D2 : Box2) (out : Grad2PM) :
    Grad2PM × Option OpDiag :=
  if eno2Precondition fb gb_plus gb_minus gb_phi gb_D1 gb_D2 then
    (LSM2D_HJ_ENO2 phi dx dy fb out, none)
  else
    (out, some OpDiag.fillBoxNotInterior)

/-- The four direct grid neighbors of a 2-D cell. -/
def fmmNeighbors (p : ℤ × ℤ) : List (ℤ × ℤ) :=
  [(p.1 - 1, p.2), (p.1 + 1, p.2), (p.1, p.2 - 1), (p.1, p.2 + 1)]

/-- The finite set of cells of a 2-D grid box. -/
def gridCells (grid : Box2) : Finset (ℤ × ℤ) :=
  Finset.Icc grid.ilo grid.ihi ×ˢ Finset.Icc grid.jlo grid.jhi

/-- The integers from lo to hi as a list, in increasing order. -/
def intRange (lo hi : ℤ) : List ℤ :=
  (List.range (hi + 1 - lo).toNat).map (fun (n : ℕ) => lo + (n : ℤ))

/-- The cells of a 2-D grid box as a list, in a fixed row-major order. -/
def gridList (grid : Box2) : List (ℤ × ℤ) :=
  intRange grid.ilo grid.ihi ×ˢ intRange grid.jlo grid.jhi

/-- Two field values exhibit a sign change (one is nonpositive and the other
nonnegative). -/
def signChange (a b : ℚ) : Bool :=
  (decide (a ≤ 0) && decide (0 ≤ b)) || (decide (b ≤ 0) && decide (0 ≤ a))

/-- Fast-marching solver state: the sets of Known and Trial cells and the
value field T.  The Trial set plays the role of the min-heap (membership is
what matters for the frame and termination properties; extraction picks the
smallest-magnitude element). -/
structure FMMState where
  known : Finset (ℤ × ℤ)
  trial : Finset (ℤ × ℤ)
  T : ℤ × ℤ → ℚ

/-- Modelled from the spec: a cell of the initial front is an unmasked grid
cell whose direct neighborhood contains a sign change of phi. -/
def fmmFront (phi : ℤ × ℤ → ℚ) (mask : ℤ × ℤ → Bool) (grid : Box2)
    (p : ℤ × ℤ) : Bool :=
  Box2.mem grid p && !(mask p) &&
    (fmmNeighbors p).any (fun n => Box2.mem grid n && signChange (phi p) (phi n))

/-- The set of initial-front cells. -/
def fmmFrontSet (phi : ℤ × ℤ → ℚ) (mask : ℤ × ℤ → Bool) (grid : Box2) :
    Finset (ℤ × ℤ) :=
  (gridCells grid).filter (fun p => fmmFront phi mask grid p = true)

/-- Modelled from the spec (step 2 of the algorithm; the C template body
lsm_FMM_eikonal.h included by lsm_FMM_eikonal2d.c is not in the source
tree): relax one neighbor w.  For an unmasked grid cell w that is not Known,
a candidate value is computed by the upwind Eikonal update (the numeric
update is the parameter update; the masked/Known/Trial bookkeeping proved
here is independent of it); if the candidate is smaller in magnitude than
the current T(w), then T(w) is updated and w is put in the Trial set (this
covers both heap insertion of a Far cell and decrease-key of a Trial
cell). -/
def fmmRelaxStep (update : (ℤ × ℤ → ℚ) → ℤ × ℤ → ℚ) (mask : ℤ × ℤ → Bool)
    (grid : Box2) (st : FMMState) (w : ℤ × ℤ) : FMMState :=
  if Box2.mem grid w && !(mask w) && !(decide (w ∈ st.known)) then
    if |update st.T w| < |st.T w| then
      { known := st.known, trial := insert w st.trial,
        T := fun q => if q = w then update st.T w else st.T q }
    else st
  else st

/-- Relax every direct neighbor of the freshly Known cell v. -/
def fmmRelax (update : (ℤ × ℤ → ℚ) → ℤ × ℤ → ℚ) (mask : ℤ × ℤ → Bool)
    (grid : Box2) (v : ℤ × ℤ) (s : FMMState) : FMMState :=
  (fmmNeighbors v).foldl (fmmRelaxStep update mask grid) s

/-- Modelled from the spec: extract the Trial cell whose T has the smallest
magnitude (the heap may break ties either way; the first minimum in the
deterministic grid order is taken; Trial cells always lie in the grid). -/
def fmmExtractMin (grid : Box2) (trial : Finset (ℤ × ℤ)) (T : ℤ × ℤ → ℚ) :
    Option (ℤ × ℤ) :=
  ((gridList grid).filter (fun p => decide (p ∈ trial))).argmin (fun p => |T p|)

/-- Modelled from the spec: the propagation loop.  While Trial cells remain,
extract the smallest-magnitude one, mark it Known and relax its neighbors.
Fuel bounds the number of extractions; each extraction makes one more grid
cell Known, so grid-cardinality fuel suffices for the loop to drain the
Trial set. -/
def fmmLoop (update : (ℤ × ℤ → ℚ) → ℤ × ℤ → ℚ) (mask : ℤ × ℤ → Bool)
    (grid : Box2) : ℕ → FMMState → FMMState
  | 0, s => s
  | fuel + 1, s =>
    match fmmExtractMin grid s.trial s.T with
    | none => s
    | some v =>
        fmmLoop update mask grid fuel
          (fmmRelax update mask grid v
            { known := insert v s.known, trial := s.trial.erase v, T := s.T })

/-- Modelled from the spec (step 1 of the algorithm): initialization.  Front
cells become Known with their input T values (the zero-crossing/boundary
values supplied by the caller); every other unmasked grid cell starts Far
with the large sentinel value; masked cells keep their input T.  The
unmasked neighbors of every front cell are then relaxed into the Trial
set. -/
def fmmInit (update : (ℤ × ℤ → ℚ) → ℤ × ℤ → ℚ) (phi T0 : ℤ × ℤ → ℚ)
    (mask : ℤ × ℤ → Bool) (grid : Box2) (sentinel : ℚ) : FMMState :=
  ((gridList grid).filter (fun p => fmmFront phi mask grid p)).foldl
    (fun st v => fmmRelax update mask grid v st)
    { known := fmmFrontSet phi mask grid, trial := ∅,
      T := fun p =>
        if Box2.mem grid p && !(mask p) && !(fmmFront phi mask grid p) then
          sentinel
        else T0 p }

/-- Modelled from the spec (the C template body lsm_FMM_eikonal.h is not in
the source tree): the Eikonal solver initializes the front and runs the
propagation loop to completion. -/
def solveEikonalEquation2d (update : (ℤ × ℤ → ℚ) → ℤ × ℤ → ℚ)
    (phi T0 : ℤ × ℤ → ℚ) (mask : ℤ × ℤ → Bool) (grid : Box2) (sentinel : ℚ) :
    FMMState :=
  fmmLoop update mask grid ((gridCells grid).card + 1)
    (fmmInit update phi T0 mask grid sentinel)

/-- Unmasked adjacency: w is a direct neighbor of v that lies in the grid
and is unmasked. -/
def fmmAdj (mask : ℤ × ℤ → Bool) (grid : Box2) (v w : ℤ × ℤ) : Prop :=
  w ∈ fmmNeighbors v ∧ Box2.mem grid w = true ∧ mask w = false

/-- The invariant of the FMM propagation: Known and Trial cells lie in the
grid; Trial cells are unmasked and not Known; masked cells carry their input
T; unmasked Far cells carry the sentinel; and every unmasked grid neighbor
of a Known cell is Known or Trial. -/
def FMMInv (mask : ℤ × ℤ → Bool) (grid : Box2) (T0 : ℤ × ℤ → ℚ)
    (sentinel : ℚ) (s : FMMState) : Prop :=
  s.known ⊆ gridCells grid ∧
  s.trial ⊆ gridCells grid ∧
  (∀ p ∈ s.trial, mask p = false ∧ p ∉ s.known) ∧
  (∀ p, mask p = true → s.T p = T0 p) ∧
  (∀ p, p ∈ gridCells grid → mask p = false → p ∉ s.known → p ∉ s.trial →
    s.T p = sentinel) ∧
  (∀ v ∈ s.known, ∀ w, fmmAdj mask grid v w → w ∈ s.known ∨ w ∈ s.trial)

/-- Facts relating a state to any state obtained from it by relax steps:
Known is untouched, Trial only grows and gains only unmasked non-Known grid
cells, the T value of a cell outside the final Trial set is untouched, and
masked cells are never written. -/
structure RelaxFacts (mask : ℤ × ℤ → Bool) (grid : Box2) (s s' : FMMState) :
    Prop where
  known_eq : s'.known = s.known
  trial_sub : s.trial ⊆ s'.trial
  trial_mem : ∀ p ∈ s'.trial,
    p ∈ s.trial ∨ (Box2.mem grid p = true ∧ mask p = false ∧ p ∉ s.known)
  T_not_trial : ∀ p, p ∉ s'.trial → s'.T p = s.T p ∧ p ∉ s.trial
  T_masked : ∀ p, mask p = true → s'.T p = s.T p

end LSMLIB

namespace LSMLIB

/-- Folding the band maximum step never decreases the accumulator. -/
theorem le_maxAbsOnBand_foldl (f : ℤ × ℤ × ℤ → ℚ) (nb : ℤ × ℤ × ℤ → ℕ)
    (mark_fb : ℕ) :
    ∀ (band : List (ℤ × ℤ × ℤ)) (a : ℚ),
      a ≤ band.foldl (fun m p => if nb p ≤ mark_fb then max m |f p| else m) a := by
  intro band
  induction band with
  | nil => intro a; simp
  | cons p l ih =>
      intro a
      refine le_trans ?_ (ih (if nb p ≤ mark_fb then max a |f p| else a))
      by_cases h : nb p ≤ mark_fb <;> simp [h, le_max_left]

/-- The band maximum of absolute values is nonnegative. -/
theorem maxAbsOnBand_nonneg (f : ℤ × ℤ × ℤ → ℚ) (band : List (ℤ × ℤ × ℤ))
    (nb : ℤ × ℤ × ℤ → ℕ) (mark_fb : ℕ) : 0 ≤ maxAbsOnBand f band nb mark_fb :=
  le_maxAbsOnBand_foldl f nb mark_fb band 0

/-- C1: the constant-curvature RHS entry point
LSM2D_ADD_CONST_CURV_TERM_TO_LSE_RHS is declared in the source header with
lse_rhs as a const (read-only) pointer, even though the header's own doc
comment documents lse_rhs as an in/out argument: the code contradicts its
documentation, so the field is not writable through the declared interface
as the claim requires. -/
theorem constCurvTerm_lse_rhs_not_writable :
    paramIsWritable LSM2D_ADD_CONST_CURV_TERM_TO_LSE_RHS_params "lse_rhs" = false ∧
    LSM2D_ADD_CONST_CURV_TERM_TO_LSE_RHS_lse_rhs_doc = "in/out" := by
  constructor
  · rfl
  · rfl

/-- C4: with a velocity x-component strictly positive at every fill-box cell,
the upwind HJ-ENO1 phi_x output coincides with the phi_x_minus output of the
plus/minus HJ-ENO1 operator at every fill-box cell; with it strictly
negative everywhere it coincides with phi_x_plus; at a fill-box cell where
the component vanishes the output is 0. -/
theorem upwind_hj_eno1_selects_by_velocity_sign (phi vel_x vel_y : ℤ × ℤ → ℚ)
    (dx dy : ℚ) (fb : Box2) (out : Grad2) (outPM : Grad2PM) :
    ((∀ p, fb.mem p = true → 0 < vel_x p) →
      ∀ p, fb.mem p = true →
        (LSM2D_UPWIND_HJ_ENO1 phi vel_x vel_y dx dy fb out).x p =
          (LSM2D_HJ_ENO1 phi dx dy fb outPM).xMinus p) ∧
    ((∀ p, fb.mem p = true → vel_x p < 0) →
      ∀ p, fb.mem p = true →
        (LSM2D_UPWIND_HJ_ENO1 phi vel_x vel_y dx dy fb out).x p =
          (LSM2D_HJ_ENO1 phi dx dy fb outPM).xPlus p) ∧
    (∀ p, fb.mem p = true → vel_x p = 0 →
      (LSM2D_UPWIND_HJ_ENO1 phi vel_x vel_y dx dy fb out).x p = 0) := by
  refine ⟨?_, ?_, ?_⟩
  · intro hv p hp
    have h := hv p hp
    simp [LSM2D_UPWIND_HJ_ENO1, LSM2D_HJ_ENO1, hp, h]
  · intro hv p hp
    have h := hv p hp
    have h' : ¬ (0 < vel_x p) := not_lt.mpr (le_of_lt h)
    simp [LSM2D_UPWIND_HJ_ENO1, LSM2D_HJ_ENO1, hp, h, h']
  · intro p hp h
    simp [LSM2D_UPWIND_HJ_ENO1, hp, h]

/-- C4 witness: on a one-cell fill box with velocity (1, -1) the upwind
x-derivative equals the minus derivative. -/
theorem upwind_hj_eno1_selects_by_velocity_sign_witness :
    (LSM2D_UPWIND_HJ_ENO1 (fun p => (p.1 : ℚ)) (fun _ => 1) (fun _ => -1)
        1 1 ⟨0, 0, 0, 0⟩ ⟨fun _ => 0, fun _ => 0⟩).x (0, 0) =
      (LSM2D_HJ_ENO1 (fun p => (p.1 : ℚ)) 1 1 ⟨0, 0, 0, 0⟩
        ⟨fun _ => 0, fun _ => 0, fun _ => 0, fun _ => 0⟩).xMinus (0, 0) :=
  (upwind_hj_eno1_selects_by_velocity_sign (fun p => (p.1 : ℚ)) (fun _ => 1)
      (fun _ => -1) 1 1 ⟨0, 0, 0, 0⟩ ⟨fun _ => 0, fun _ => 0⟩
      ⟨fun _ => 0, fun _ => 0, fun _ => 0, fun _ => 0⟩).1
    (fun _ _ => by norm_num) (0, 0) (by decide)

/-- C8: TVD RK2 stage 1 produces u_cur + dt*rhs at every fill-box point and
coincides with an RK1 step; stage 2 with a freshly supplied rhs produces
u_cur/2 + u_stage1/2 + dt*rhs/2 at every fill-box point; both stages leave
every point outside the fill box (the ghost cells of the output) with its
previous output value. -/
theorem tvd_rk2_stages (u_cur rhs1 u_stage1 rhs2 prev1 prev2 : ℤ → ℚ)
    (dt : ℚ) (fb : Box1) :
    ((∀ i, fb.mem i = true →
        LSM1D_TVD_RK2_STAGE1 u_cur rhs1 dt fb prev1 i = u_cur i + dt * rhs1 i) ∧
     LSM1D_TVD_RK2_STAGE1 u_cur rhs1 dt fb prev1 =
       LSM1D_RK1_STEP u_cur rhs1 dt fb prev1) ∧
    (∀ i, fb.mem i = true →
      LSM1D_TVD_RK2_STAGE2 u_stage1 u_cur rhs2 dt fb prev2 i =
        (1 / 2) * u_cur i + (1 / 2) * u_stage1 i + (1 / 2) * dt * rhs2 i) ∧
    (∀ i, fb.mem i = false →
      LSM1D_TVD_RK2_STAGE1 u_cur rhs1 dt fb prev1 i = prev1 i ∧
      LSM1D_TVD_RK2_STAGE2 u_stage1 u_cur rhs2 dt fb prev2 i = prev2 i) := by
  refine ⟨⟨?_, rfl⟩, ?_, ?_⟩
  · intro i hi; simp [LSM1D_TVD_RK2_STAGE1, hi]
  · intro i hi; simp [LSM1D_TVD_RK2_STAGE2, hi]
  · intro i hi
    constructor
    · simp [LSM1D_TVD_RK2_STAGE1, hi]
    · simp [LSM1D_TVD_RK2_STAGE2, hi]

/-- C8 witness: a concrete RK2 step on the fill box [0, 1]: the stage values
at the interior point 0 and the untouched ghost value at -5. -/
theorem tvd_rk2_stages_witness :
    LSM1D_TVD_RK2_STAGE1 (fun _ => 2) (fun _ => 3) (1 / 2) ⟨0, 1⟩
        (fun _ => 7) 0 = 2 + (1 / 2) * 3 ∧
    LSM1D_TVD_RK2_STAGE2 (fun _ => 4) (fun _ => 2) (fun _ => 6) (1 / 2) ⟨0, 1⟩
        (fun _ => 9) 0 =
      (1 / 2) * 2 + (1 / 2) * 4 + (1 / 2) * (1 / 2) * 6 ∧
    LSM1D_TVD_RK2_STAGE1 (fun _ => 2) (fun _ => 3) (1 / 2) ⟨0, 1⟩
        (fun _ => 7) (-5) = 7 := by
  have h := tvd_rk2_stages (fun _ => 2) (fun _ => 3) (fun _ => 4) (fun _ => 6)
    (fun _ => 7) (fun _ => 9) (1 / 2) ⟨0, 1⟩
  exact ⟨h.1.1 0 (by decide), h.2.1 0 (by decide), (h.2.2 (-5) (by decide)).1⟩

/-- C9: the local stable-advection time step dt satisfies
dt * (max|vel_x|/dx + max|vel_y|/dy + max|vel_z|/dz) ≤ cfl, the maxima taken
over the narrow-band cells with mask at most mark_fb; it is a CFL-safe step
for the advection kernel. -/
theorem stable_advection_dt_local_cfl_safe (vel_x vel_y vel_z : ℤ × ℤ × ℤ → ℚ)
    (dx dy dz cfl_number : ℚ) (band : List (ℤ × ℤ × ℤ)) (nb : ℤ × ℤ × ℤ → ℕ)
    (mark_fb : ℕ) (hdx : 0 < dx) (hdy : 0 < dy) (hdz : 0 < dz)
    (hcfl : 0 ≤ cfl_number) :
    LSM3D_COMPUTE_STABLE_ADVECTION_DT_LOCAL vel_x vel_y vel_z dx dy dz
        cfl_number band nb mark_fb *
      (maxAbsOnBand vel_x band nb mark_fb / dx +
       maxAbsOnBand vel_y band nb mark_fb / dy +
       maxAbsOnBand vel_z band nb mark_fb / dz) ≤ cfl_number := by
  set S : ℚ := maxAbsOnBand vel_x band nb mark_fb / dx +
      maxAbsOnBand vel_y band nb mark_fb / dy +
      maxAbsOnBand vel_z band nb mark_fb / dz with hS
  have hS0 : 0 ≤ S := by
    have hx := maxAbsOnBand_nonneg vel_x band nb mark_fb
    have hy := maxAbsOnBand_nonneg vel_y band nb mark_fb
    have hz := maxAbsOnBand_nonneg vel_z band nb mark_fb
    have := add_nonneg (add_nonneg (div_nonneg hx (le_of_lt hdx))
      (div_nonneg hy (le_of_lt hdy))) (div_nonneg hz (le_of_lt hdz))
    simpa [hS] using this
  rcases eq_or_lt_of_le hS0 with h0 | hpos
  · rw [LSM3D_COMPUTE_STABLE_ADVECTION_DT_LOCAL, ← hS, ← h0]
    simpa using hcfl
  · rw [LSM3D_COMPUTE_STABLE_ADVECTION_DT_LOCAL, ← hS,
      div_mul_cancel₀ cfl_number (ne_of_gt hpos)]

/-- C9 witness: a concrete two-cell band with unit spacings and cfl 9/10. -/
theorem stable_advection_dt_local_cfl_safe_witness :
    LSM3D_COMPUTE_STABLE_ADVECTION_DT_LOCAL (fun _ => 2) (fun _ => -3)
        (fun _ => 1) 1 1 1 (9 / 10) [(0, 0, 0), (1, 0, 0)] (fun _ => 0) 0 *
      (maxAbsOnBand (fun _ => 2) [(0, 0, 0), (1, 0, 0)] (fun _ => 0) 0 / 1 +
       maxAbsOnBand (fun _ => -3) [(0, 0, 0), (1, 0, 0)] (fun _ => 0) 0 / 1 +
       maxAbsOnBand (fun _ => 1) [(0, 0, 0), (1, 0, 0)] (fun _ => 0) 0 / 1) ≤
      9 / 10 :=
  stable_advection_dt_local_cfl_safe (fun _ => 2) (fun _ => -3) (fun _ => 1)
    1 1 1 (9 / 10) [(0, 0, 0), (1, 0, 0)] (fun _ => 0) 0 (by norm_num)
    (by norm_num) (by norm_num) (by norm_num)

/-- C10: LSM2D_AVERAGE_GRAD_PHI writes, at every fill-box cell, the
componentwise arithmetic mean of the plus and minus one-sided gradients. -/
theorem average_grad_phi_is_componentwise_mean (gradPM : Grad2PM) (fb : Box2)
    (out : Grad2) :
    ∀ p, fb.mem p = true →
      (LSM2D_AVERAGE_GRAD_PHI gradPM fb out).x p =
        (gradPM.xPlus p + gradPM.xMinus p) / 2 ∧
      (LSM2D_AVERAGE_GRAD_PHI gradPM fb out).y p =
        (gradPM.yPlus p + gradPM.yMinus p) / 2 := by
  intro p hp
  constructor
  · simp [LSM2D_AVERAGE_GRAD_PHI, hp]
  · simp [LSM2D_AVERAGE_GRAD_PHI, hp]

/-- Pointwise characterisation of the narrow-band ENO2 operator: a cell that
occurs in the index list with mask tag at most mark_fb holds the ENO2
result; every other cell holds its previous output value. -/
theorem eno2_local_apply (phi : ℤ × ℤ → ℚ) (dx dy : ℚ) (nb : ℤ × ℤ → ℕ)
    (mark_fb : ℕ) :
    ∀ (l : List (ℤ × ℤ)) (out : Grad2PM) (q : ℤ × ℤ),
      (LSM2D_HJ_ENO2_LOCAL phi dx dy l nb mark_fb out).xPlus q =
        (if q ∈ l ∧ nb q ≤ mark_fb then hjENO2plusX phi dx q else out.xPlus q) ∧
      (LSM2D_HJ_ENO2_LOCAL phi dx dy l nb mark_fb out).yPlus q =
        (if q ∈ l ∧ nb q ≤ mark_fb then hjENO2plusY phi dy q else out.yPlus q) ∧
      (LSM2D_HJ_ENO2_LOCAL phi dx dy l nb mark_fb out).xMinus q =
        (if q ∈ l ∧ nb q ≤ mark_fb then hjENO2minusX phi dx q else out.xMinus q) ∧
      (LSM2D_HJ_ENO2_LOCAL phi dx dy l nb mark_fb out).yMinus q =
        (if q ∈ l ∧ nb q ≤ mark_fb then hjENO2minusY phi dy q else out.yMinus q) := by
  intro l
  induction l with
  | nil => intro out q; simp [LSM2D_HJ_ENO2_LOCAL]
  | cons p l ih =>
      intro out q
      have step : LSM2D_HJ_ENO2_LOCAL phi dx dy (p :: l) nb mark_fb out =
          LSM2D_HJ_ENO2_LOCAL phi dx dy l nb mark_fb
            (if nb p ≤ mark_fb then eno2WriteAt phi dx dy out p else out) := by
        simp [LSM2D_HJ_ENO2_LOCAL]
      rw [step]
      obtain ⟨h1, h2, h3, h4⟩ :=
        ih (if nb p ≤ mark_fb then eno2WriteAt phi dx dy out p else out) q
      by_cases hql : q ∈ l ∧ nb q ≤ mark_fb
      · have hcons : q ∈ p :: l ∧ nb q ≤ mark_fb :=
          ⟨List.mem_cons_of_mem p hql.1, hql.2⟩
        rw [h1, h2, h3, h4]
        simp [hql, hcons]
      · rw [h1, h2, h3, h4]
        simp only [hql, if_false]
        by_cases hqp : q = p
        · subst hqp
          by_cases hok : nb q ≤ mark_fb
          · simp [eno2WriteAt, hok, List.mem_cons]
          · have hno : ¬ (q ∈ q :: l ∧ nb q ≤ mark_fb) := fun h => hok h.2
            simp [hok, hno]
        · have hno : ¬ (q ∈ p :: l ∧ nb q ≤ mark_fb) := by
            intro h
            rcases List.mem_cons.mp h.1 with h' | h'
            · exact hqp h'
            · exact hql ⟨h', h.2⟩
          by_cases hok : nb p ≤ mark_fb
          · simp [eno2WriteAt, hok, hqp, hno, hql]
          · simp [hok, hno, hql, hqp]

/-- C2: on the same input the narrow-band ENO2 operator produces exactly the
same output values as the global ENO2 operator at every band cell whose mask
tag is at most mark_fb (and that lies in the global fill box), and it writes
nothing at any point whose mask tag exceeds mark_fb.  Both operators are
modelled over exact rationals, where the bit-for-bit identity of the source
becomes equality of values. -/
theorem hj_eno2_local_matches_global (phi : ℤ × ℤ → ℚ) (dx dy : ℚ) (fb : Box2)
    (index_list : List (ℤ × ℤ)) (nb : ℤ × ℤ → ℕ) (mark_fb : ℕ)
    (outG outL : Grad2PM) :
    (∀ p, p ∈ index_list → nb p ≤ mark_fb → fb.mem p = true →
      (LSM2D_HJ_ENO2_LOCAL phi dx dy index_list nb mark_fb outL).xPlus p =
        (LSM2D_HJ_ENO2 phi dx dy fb outG).xPlus p ∧
      (LSM2D_HJ_ENO2_LOCAL phi dx dy index_list nb mark_fb outL).yPlus p =
        (LSM2D_HJ_ENO2 phi dx dy fb outG).yPlus p ∧
      (LSM2D_HJ_ENO2_LOCAL phi dx dy index_list nb mark_fb outL).xMinus p =
        (LSM2D_HJ_ENO2 phi dx dy fb outG).xMinus p ∧
      (LSM2D_HJ_ENO2_LOCAL phi dx dy index_list nb mark_fb outL).yMinus p =
        (LSM2D_HJ_ENO2 phi dx dy fb outG).yMinus p) ∧
    (∀ p, mark_fb < nb p →
      (LSM2D_HJ_ENO2_LOCAL phi dx dy index_list nb mark_fb outL).xPlus p =
        outL.xPlus p ∧
      (LSM2D_HJ_ENO2_LOCAL phi dx dy index_list nb mark_fb outL).yPlus p =
        outL.yPlus p ∧
      (LSM2D_HJ_ENO2_LOCAL phi dx dy index_list nb mark_fb outL).xMinus p =
        outL.xMinus p ∧
      (LSM2D_HJ_ENO2_LOCAL phi dx dy index_list nb mark_fb outL).yMinus p =
        outL.yMinus p) := by
  constructor
  · intro p hmemL hmask hfb
    obtain ⟨h1, h2, h3, h4⟩ :=
      eno2_local_apply phi dx dy nb mark_fb index_list outL p
    have hc : p ∈ index_list ∧ nb p ≤ mark_fb := ⟨hmemL, hmask⟩
    rw [h1, h2, h3, h4]
    simp [LSM2D_HJ_ENO2, hc, hfb]
  · intro p hmask
    obtain ⟨h1, h2, h3, h4⟩ :=
      eno2_local_apply phi dx dy nb mark_fb index_list outL p
    have hc : ¬ (p ∈ index_list ∧ nb p ≤ mark_fb) := fun h =>
      absurd h.2 (not_le.mpr hmask)
    rw [h1, h2, h3, h4]
    simp [hc]

/-- C2 witness: a one-cell band and fill box on which the local and global
ENO2 x-minus outputs agree, and a masked-out point keeps its prior value. -/
theorem hj_eno2_local_matches_global_witness :
    (LSM2D_HJ_ENO2_LOCAL (fun p => (p.1 : ℚ) * p.1) 1 1 [(0, 0)]
        (fun _ => 0) 0 ⟨fun _ => 8, fun _ => 8, fun _ => 8, fun _ => 8⟩).xMinus
        (0, 0) =
      (LSM2D_HJ_ENO2 (fun p => (p.1 : ℚ) * p.1) 1 1 ⟨0, 0, 0, 0⟩
        ⟨fun _ => 9, fun _ => 9, fun _ => 9, fun _ => 9⟩).xMinus (0, 0) ∧
    (LSM2D_HJ_ENO2_LOCAL (fun p => (p.1 : ℚ) * p.1) 1 1 [(0, 0)]
        (fun _ => 3) 0 ⟨fun _ => 8, fun _ => 8, fun _ => 8, fun _ => 8⟩).xPlus
        (0, 0) = 8 := by
  have h := hj_eno2_local_matches_global (fun p => (p.1 : ℚ) * p.1) 1 1
    ⟨0, 0, 0, 0⟩ [(0, 0)] (fun _ => 0) 0
    ⟨fun _ => 9, fun _ => 9, fun _ => 9, fun _ => 9⟩
    ⟨fun _ => 8, fun _ => 8, fun _ => 8, fun _ => 8⟩
  have h' := hj_eno2_local_matches_global (fun p => (p.1 : ℚ) * p.1) 1 1
    ⟨0, 0, 0, 0⟩ [(0, 0)] (fun _ => 3) 0
    ⟨fun _ => 9, fun _ => 9, fun _ => 9, fun _ => 9⟩
    ⟨fun _ => 8, fun _ => 8, fun _ => 8, fun _ => 8⟩
  exact ⟨(h.1 (0, 0) (by decide) (by decide) (by decide)).2.2.1,
    (h'.2 (0, 0) (by decide)).1⟩

/-- C3: after the homogeneous-Neumann ENO1 boundary writer has been invoked
on both faces of a 1-D field, the HJ-ENO1 backward derivative at the lowest
interior cell and the forward derivative at the highest interior cell are
exactly zero. -/
theorem neumann_eno1_boundary_derivatives_vanish (phi : ℤ → ℚ) (dx : ℚ)
    (gb fb : Box1) (outPlus outMinus : ℤ → ℚ) (hlo : gb.lo ≤ fb.lo - 1)
    (hhi : fb.hi + 1 ≤ gb.hi) (hfb : fb.lo ≤ fb.hi) :
    (LSM1D_HJ_ENO1
        (LSM1D_HOMOGENEOUS_NEUMANN_ENO1
          (LSM1D_HOMOGENEOUS_NEUMANN_ENO1 phi gb fb 0) gb fb 1)
        dx fb outPlus outMinus).2 fb.lo = 0 ∧
    (LSM1D_HJ_ENO1
        (LSM1D_HOMOGENEOUS_NEUMANN_ENO1
          (LSM1D_HOMOGENEOUS_NEUMANN_ENO1 phi gb fb 0) gb fb 1)
        dx fb outPlus outMinus).1 fb.hi = 0 := by
  have hmemlo : fb.mem fb.lo = true := by
    simp only [Box1.mem, Bool.and_eq_true, decide_eq_true_eq]
    omega
  have hmemhi : fb.mem fb.hi = true := by
    simp only [Box1.mem, Bool.and_eq_true, decide_eq_true_eq]
    omega
  have ha : LSM1D_HOMOGENEOUS_NEUMANN_ENO1
      (LSM1D_HOMOGENEOUS_NEUMANN_ENO1 phi gb fb 0) gb fb 1 fb.lo = phi fb.lo := by
    simp only [LSM1D_HOMOGENEOUS_NEUMANN_ENO1]
    split_ifs <;> first | rfl | omega
  have hb : LSM1D_HOMOGENEOUS_NEUMANN_ENO1
      (LSM1D_HOMOGENEOUS_NEUMANN_ENO1 phi gb fb 0) gb fb 1 (fb.lo - 1) =
      phi fb.lo := by
    simp only [LSM1D_HOMOGENEOUS_NEUMANN_ENO1]
    split_ifs <;> first | rfl | omega
  have hc : LSM1D_HOMOGENEOUS_NEUMANN_ENO1
      (LSM1D_HOMOGENEOUS_NEUMANN_ENO1 phi gb fb 0) gb fb 1 fb.hi = phi fb.hi := by
    simp only [LSM1D_HOMOGENEOUS_NEUMANN_ENO1]
    split_ifs <;> first | rfl | omega
  have hd : LSM1D_HOMOGENEOUS_NEUMANN_ENO1
      (LSM1D_HOMOGENEOUS_NEUMANN_ENO1 phi gb fb 0) gb fb 1 (fb.hi + 1) =
      phi fb.hi := by
    simp only [LSM1D_HOMOGENEOUS_NEUMANN_ENO1]
    split_ifs <;> first | rfl | omega
  constructor
  · simp only [LSM1D_HJ_ENO1, hmemlo, if_true, D1oned]
    rw [ha, hb, sub_self, zero_div]
  · simp only [LSM1D_HJ_ENO1, hmemhi, if_true, D1oned]
    have : fb.hi + 1 - 1 = fb.hi := by ring
    rw [this, hc, hd, sub_self, zero_div]

/-- C3 witness: the concrete 25-cell scenario of the source test, with
phi(x) = (x - 1/4)^2 sampled at cell centres, ghost width 3 and spacing
1/25; both boundary one-sided derivatives vanish, hence are within 1e-6 of
zero. -/
theorem neumann_eno1_boundary_derivatives_vanish_witness :
    |(LSM1D_HJ_ENO1
        (LSM1D_HOMOGENEOUS_NEUMANN_ENO1
          (LSM1D_HOMOGENEOUS_NEUMANN_ENO1
            (fun i => ((i : ℚ) / 25 + 1 / 50 - 1 / 4) ^ 2) ⟨-3, 27⟩ ⟨0, 24⟩ 0)
          ⟨-3, 27⟩ ⟨0, 24⟩ 1)
        (1 / 25) ⟨0, 24⟩ (fun _ => 0) (fun _ => 0)).2 0| ≤ 1 / 1000000 ∧
    |(LSM1D_HJ_ENO1
        (LSM1D_HOMOGENEOUS_NEUMANN_ENO1
          (LSM1D_HOMOGENEOUS_NEUMANN_ENO1
            (fun i => ((i : ℚ) / 25 + 1 / 50 - 1 / 4) ^ 2) ⟨-3, 27⟩ ⟨0, 24⟩ 0)
          ⟨-3, 27⟩ ⟨0, 24⟩ 1)
        (1 / 25) ⟨0, 24⟩ (fun _ => 0) (fun _ => 0)).1 24| ≤ 1 / 1000000 := by
  have h := neumann_eno1_boundary_derivatives_vanish
    (fun i => ((i : ℚ) / 25 + 1 / 50 - 1 / 4) ^ 2) (1 / 25) ⟨-3, 27⟩ ⟨0, 24⟩
    (fun _ => 0) (fun _ => 0) (by decide) (by decide) (by decide)
  constructor
  · rw [show ((0 : ℤ)) = Box1.lo ⟨0, 24⟩ from rfl] at *
    rw [h.1]
    norm_num
  · rw [show ((24 : ℤ)) = Box1.hi ⟨0, 24⟩ from rfl] at *
    rw [h.2]
    norm_num

/-- C5: at every fill-box cell the normal-velocity RHS operation subtracts
vel_n times the square root of the Godunov-Hamiltonian squared norm, which
sums per axis max(max(d-,0)^2, min(d+,0)^2) when vel_n is nonnegative and
max(min(d-,0)^2, max(d+,0)^2) when vel_n is negative. -/
theorem add_normal_vel_term_formula (sqrtA : ℚ → ℚ) (lse_rhs : ℤ × ℤ → ℚ)
    (gradPM : Grad2PM) (vel_n : ℤ × ℤ → ℚ) (fb : Box2) :
    ∀ p, fb.mem p = true →
      (0 ≤ vel_n p →
        LSM2D_ADD_NORMAL_VEL_TERM_TO_LSE_RHS sqrtA lse_rhs gradPM vel_n fb p =
          lse_rhs p - vel_n p * sqrtA
            (max ((max (gradPM.xMinus p) 0) ^ 2) ((min (gradPM.xPlus p) 0) ^ 2) +
             max ((max (gradPM.yMinus p) 0) ^ 2) ((min (gradPM.yPlus p) 0) ^ 2))) ∧
      (vel_n p < 0 →
        LSM2D_ADD_NORMAL_VEL_TERM_TO_LSE_RHS sqrtA lse_rhs gradPM vel_n fb p =
          lse_rhs p - vel_n p * sqrtA
            (max ((min (gradPM.xMinus p) 0) ^ 2) ((max (gradPM.xPlus p) 0) ^ 2) +
             max ((min (gradPM.yMinus p) 0) ^ 2) ((max (gradPM.yPlus p) 0) ^ 2))) := by
  intro p hp
  constructor
  · intro hv
    simp [LSM2D_ADD_NORMAL_VEL_TERM_TO_LSE_RHS, godunovAxisSq, hp, hv]
  · intro hv
    have hv' : ¬ (0 ≤ vel_n p) := not_le.mpr hv
    simp [LSM2D_ADD_NORMAL_VEL_TERM_TO_LSE_RHS, godunovAxisSq, hp, hv']

/-- C5 witness: a concrete fill-box cell with vel_n = 2 and one-sided
gradients (3,-1) and (5,4), evaluated with the identity in place of the
machine square root. -/
theorem add_normal_vel_term_formula_witness :
    LSM2D_ADD_NORMAL_VEL_TERM_TO_LSE_RHS (fun q => q) (fun _ => 10)
        ⟨fun _ => 3, fun _ => -1, fun _ => 5, fun _ => 4⟩ (fun _ => 2)
        ⟨0, 0, 0, 0⟩ (0, 0) =
      10 - 2 * (max ((max (5 : ℚ) 0) ^ 2) ((min (3 : ℚ) 0) ^ 2) +
        max ((max (4 : ℚ) 0) ^ 2) ((min (-1 : ℚ) 0) ^ 2)) :=
  (add_normal_vel_term_formula (fun q => q) (fun _ => 10)
      ⟨fun _ => 3, fun _ => -1, fun _ => 5, fun _ => 4⟩ (fun _ => 2)
      ⟨0, 0, 0, 0⟩ (0, 0) (by decide)).1 (by norm_num)

/-- C7: when the ENO2 precondition fails (the fill box is not interior to
every ghost box by the stencil margin), the checked operator raises a fatal
precondition diagnostic and returns every output array completely
unchanged — no partial write happens. -/
theorem eno2_checked_no_partial_writes_on_failure (phi : ℤ × ℤ → ℚ)
    (dx dy : ℚ) (fb gb_plus gb_minus gb_phi gb_D1 gb_D2 : Box2)
    (out : Grad2PM)
    (hfail : eno2Precondition fb gb_plus gb_minus gb_phi gb_D1 gb_D2 = false) :
    (LSM2D_HJ_ENO2_CHECKED phi dx dy fb gb_plus gb_minus gb_phi gb_D1 gb_D2
        out).1 = out ∧
    (LSM2D_HJ_ENO2_CHECKED phi dx dy fb gb_plus gb_minus gb_phi gb_D1 gb_D2
        out).2 = some OpDiag.fillBoxNotInterior := by
  constructor
  · simp [LSM2D_HJ_ENO2_CHECKED, hfail]
  · simp [LSM2D_HJ_ENO2_CHECKED, hfail]

/-- C7 witness: a fill box equal to all the ghost boxes violates the ENO2
margin, the diagnostic is raised and the outputs are returned untouched. -/
theorem eno2_checked_no_partial_writes_on_failure_witness :
    (LSM2D_HJ_ENO2_CHECKED (fun _ => 0) 1 1 ⟨0, 4, 0, 4⟩ ⟨0, 4, 0, 4⟩
        ⟨0, 4, 0, 4⟩ ⟨0, 4, 0, 4⟩ ⟨0, 4, 0, 4⟩ ⟨0, 4, 0, 4⟩
        ⟨fun _ => 1, fun _ => 2, fun _ => 3, fun _ => 4⟩).1 =
      ⟨fun _ => 1, fun _ => 2, fun _ => 3, fun _ => 4⟩ ∧
    (LSM2D_HJ_ENO2_CHECKED (fun _ => 0) 1 1 ⟨0, 4, 0, 4⟩ ⟨0, 4, 0, 4⟩
        ⟨0, 4, 0, 4⟩ ⟨0, 4, 0, 4⟩ ⟨0, 4, 0, 4⟩ ⟨0, 4, 0, 4⟩
        ⟨fun _ => 1, fun _ => 2, fun _ => 3, fun _ => 4⟩).2 =
      some OpDiag.fillBoxNotInterior :=
  eno2_checked_no_partial_writes_on_failure (fun _ => 0) 1 1 ⟨0, 4, 0, 4⟩
    ⟨0, 4, 0, 4⟩ ⟨0, 4, 0, 4⟩ ⟨0, 4, 0, 4⟩ ⟨0, 4, 0, 4⟩ ⟨0, 4, 0, 4⟩
    ⟨fun _ => 1, fun _ => 2, fun _ => 3, fun _ => 4⟩ (by decide)

/-- Membership in the cell set of a grid box coincides with the Box2
membership test. -/
theorem mem_gridCells (grid : Box2) (p : ℤ × ℤ) :
    p ∈ gridCells grid ↔ Box2.mem grid p = true := by
  unfold gridCells Box2.mem
  rw [Finset.mem_product]
  simp only [Finset.mem_Icc, Bool.and_eq_true, decide_eq_true_eq]
  tauto

/-- Membership in an integer range list. -/
theorem mem_intRange (lo hi x : ℤ) : x ∈ intRange lo hi ↔ lo ≤ x ∧ x ≤ hi := by
  unfold intRange
  constructor
  · intro hx
    obtain ⟨n, hn, he⟩ := List.mem_map.mp hx
    rw [List.mem_range] at hn
    omega
  · intro h
    refine List.mem_map.mpr ⟨(x - lo).toNat, ?_, ?_⟩
    · rw [List.mem_range]
      omega
    · omega

/-- Membership in the row-major cell listing of a grid box. -/
theorem mem_gridList (grid : Box2) (p : ℤ × ℤ) :
    p ∈ gridList grid ↔ Box2.mem grid p = true := by
  unfold gridList Box2.mem
  rw [show p = (p.1, p.2) from rfl, List.mem_product]
  simp only [mem_intRange, Bool.and_eq_true, decide_eq_true_eq]
  tauto

/-- An extracted cell is a Trial cell. -/
theorem fmmExtractMin_mem (grid : Box2) (trial : Finset (ℤ × ℤ))
    (T : ℤ × ℤ → ℚ) (v : ℤ × ℤ) (h : fmmExtractMin grid trial T = some v) :
    v ∈ trial := by
  unfold fmmExtractMin at h
  have hm := List.argmin_mem (Option.mem_def.mpr h)
  exact of_decide_eq_true (List.mem_filter.mp hm).2

/-- Extraction returns none only when no Trial cell remains; Trial cells
always lie in the grid. -/
theorem fmmExtractMin_eq_none (grid : Box2) (trial : Finset (ℤ × ℤ))
    (T : ℤ × ℤ → ℚ) (hsub : trial ⊆ gridCells grid)
    (h : fmmExtractMin grid trial T = none) : trial = ∅ := by
  unfold fmmExtractMin at h
  rw [List.argmin_eq_none] at h
  rw [Finset.eq_empty_iff_forall_not_mem]
  intro p hp
  have hpg : p ∈ gridList grid :=
    (mem_gridList grid p).mpr ((mem_gridCells grid p).mp (hsub hp))
  have : p ∈ (gridList grid).filter (fun p => decide (p ∈ trial)) :=
    List.mem_filter.mpr ⟨hpg, decide_eq_true hp⟩
  rw [h] at this
  exact absurd this (List.not_mem_nil p)

/-- A cell is never its own direct neighbor. -/
theorem fmmNeighbors_ne (v w : ℤ × ℤ) (h : w ∈ fmmNeighbors v) : w ≠ v := by
  intro he
  subst he
  simp only [fmmNeighbors, List.mem_cons, List.not_mem_nil, or_false] at h
  rcases h with h | h | h | h <;>
    · rw [Prod.ext_iff] at h
      dsimp only at h
      omega

/-- Relax facts hold reflexively. -/
theorem relaxFacts_refl (mask : ℤ × ℤ → Bool) (grid : Box2) (s : FMMState) :
    RelaxFacts mask grid s s :=
  ⟨rfl, subset_rfl, fun _ hp => Or.inl hp, fun _ hp => ⟨rfl, hp⟩,
    fun _ _ => rfl⟩

/-- Relax facts compose. -/
theorem relaxFacts_trans {mask : ℤ × ℤ → Bool} {grid : Box2}
    {s1 s2 s3 : FMMState} (a : RelaxFacts mask grid s1 s2)
    (b : RelaxFacts mask grid s2 s3) : RelaxFacts mask grid s1 s3 := by
  refine ⟨b.known_eq.trans a.known_eq, subset_trans a.trial_sub b.trial_sub,
    ?_, ?_, ?_⟩
  · intro p hp
    rcases b.trial_mem p hp with h | h
    · exact a.trial_mem p h
    · refine Or.inr ⟨h.1, h.2.1, ?_⟩
      rw [← a.known_eq]
      exact h.2.2
  · intro p hp
    obtain ⟨hT, hnt⟩ := b.T_not_trial p hp
    obtain ⟨hT', hnt'⟩ := a.T_not_trial p hnt
    exact ⟨hT.trans hT', hnt'⟩
  · intro p hm
    exact (b.T_masked p hm).trans (a.T_masked p hm)

/-- One relax step satisfies the relax facts. -/
theorem fmmRelaxStep_facts (update : (ℤ × ℤ → ℚ) → ℤ × ℤ → ℚ)
    (mask : ℤ × ℤ → Bool) (grid : Box2) (st : FMMState) (w : ℤ × ℤ) :
    RelaxFacts mask grid st (fmmRelaxStep update mask grid st w) := by
  unfold fmmRelaxStep
  split_ifs with h1 h2
  · simp only [Bool.and_eq_true, Bool.not_eq_true', decide_eq_false_iff_not]
      at h1
    refine ⟨rfl, fun p hp => Finset.mem_insert_of_mem hp, ?_, ?_, ?_⟩
    · intro p hp
      rcases Finset.mem_insert.mp hp with h | h
      · subst h
        exact Or.inr ⟨h1.1.1, h1.1.2, h1.2⟩
      · exact Or.inl h
    · intro p hp
      have hpw : p ≠ w := fun he => hp (he ▸ Finset.mem_insert_self w st.trial)
      exact ⟨by simp [hpw], fun hin => hp (Finset.mem_insert_of_mem hin)⟩
    · intro p hm
      have hpw : p ≠ w := by
        intro he
        rw [he, h1.1.2] at hm
        exact Bool.false_ne_true hm
      simp [hpw]
  · exact relaxFacts_refl mask grid st
  · exact relaxFacts_refl mask grid st

/-- Relax facts hold across any fold of relax steps. -/
theorem relaxFacts_foldl_step (update : (ℤ × ℤ → ℚ) → ℤ × ℤ → ℚ)
    (mask : ℤ × ℤ → Bool) (grid : Box2) :
    ∀ (l : List (ℤ × ℤ)) (s : FMMState),
      RelaxFacts mask grid s (l.foldl (fmmRelaxStep update mask grid) s) := by
  intro l
  induction l with
  | nil => intro s; exact relaxFacts_refl mask grid s
  | cons x l ih =>
      intro s
      rw [List.foldl_cons]
      exact relaxFacts_trans (fmmRelaxStep_facts update mask grid s x) (ih _)

/-- Relax facts hold across the relaxation of all neighbors of a cell. -/
theorem relaxFacts_relax (update : (ℤ × ℤ → ℚ) → ℤ × ℤ → ℚ)
    (mask : ℤ × ℤ → Bool) (grid : Box2) (v : ℤ × ℤ) (s : FMMState) :
    RelaxFacts mask grid s (fmmRelax update mask grid v s) :=
  relaxFacts_foldl_step update mask grid (fmmNeighbors v) s

/-- Relax facts hold across the relaxation of a list of cells. -/
theorem relaxFacts_foldl_relax (update : (ℤ × ℤ → ℚ) → ℤ × ℤ → ℚ)
    (mask : ℤ × ℤ → Bool) (grid : Box2) :
    ∀ (l : List (ℤ × ℤ)) (s : FMMState),
      RelaxFacts mask grid s
        (l.foldl (fun st u => fmmRelax update mask grid u st) s) := by
  intro l
  induction l with
  | nil => intro s; exact relaxFacts_refl mask grid s
  | cons x l ih =>
      intro s
      rw [List.foldl_cons]
      exact relaxFacts_trans (relaxFacts_relax update mask grid x s) (ih _)

/-- A relax step on an unmasked non-Known grid cell whose Far value is the
sentinel puts that cell in the Trial set. -/
theorem fmmRelaxStep_progress (update : (ℤ × ℤ → ℚ) → ℤ × ℤ → ℚ)
    (mask : ℤ × ℤ → Bool) (grid : Box2) (sentinel : ℚ)
    (hup : ∀ T x, |update T x| < sentinel) (st : FMMState) (w : ℤ × ℤ)
    (hw : Box2.mem grid w = true) (hmw : mask w = false) (hkw : w ∉ st.known)
    (hsent : w ∉ st.trial → st.T w = sentinel) :
    w ∈ (fmmRelaxStep update mask grid st w).trial := by
  have hcond :
      (Box2.mem grid w && !(mask w) && !(decide (w ∈ st.known))) = true := by
    simp [hw, hmw, hkw]
  unfold fmmRelaxStep
  rw [if_pos hcond]
  by_cases ht : w ∈ st.trial
  · split_ifs with h2
    · exact Finset.mem_insert_self w st.trial
    · exact ht
  · have hlt : |update st.T w| < |st.T w| := by
      rw [hsent ht]
      exact lt_of_lt_of_le (hup st.T w) (le_abs_self sentinel)
    rw [if_pos hlt]
    exact Finset.mem_insert_self w st.trial

/-- Folding relax steps over a list containing an unmasked non-Known grid
cell puts that cell in the Trial set. -/
theorem fmmRelaxFold_progress (update : (ℤ × ℤ → ℚ) → ℤ × ℤ → ℚ)
    (mask : ℤ × ℤ → Bool) (grid : Box2) (sentinel : ℚ)
    (hup : ∀ T x, |update T x| < sentinel) :
    ∀ (l : List (ℤ × ℤ)) (s : FMMState) (w : ℤ × ℤ), w ∈ l →
      Box2.mem grid w = true → mask w = false → w ∉ s.known →
      (w ∉ s.trial → s.T w = sentinel) →
      w ∈ (l.foldl (fmmRelaxStep update mask grid) s).trial := by
  intro l
  induction l with
  | nil =>
      intro s w hw
      exact absurd hw (List.not_mem_nil w)
  | cons x l ih =>
      intro s w hwl hw hmw hkw hsent
      rw [List.foldl_cons]
      rcases List.mem_cons.mp hwl with rfl | hl
      · have h1 : w ∈ (fmmRelaxStep update mask grid s w).trial :=
          fmmRelaxStep_progress update mask grid sentinel hup s w hw hmw hkw
            hsent
        exact (relaxFacts_foldl_step update mask grid l _).trial_sub h1
      · have f := fmmRelaxStep_facts update mask grid s x
        refine ih (fmmRelaxStep update mask grid s x) w hl hw hmw ?_ ?_
        · rw [f.known_eq]
          exact hkw
        · intro hnt
          obtain ⟨hT, hnt'⟩ := f.T_not_trial w hnt
          rw [hT]
          exact hsent hnt'

/-- After relaxing the neighbors of every cell of a list, every unmasked
grid neighbor of a listed cell is Known or Trial. -/
theorem fmmRelaxMany_closure (update : (ℤ × ℤ → ℚ) → ℤ × ℤ → ℚ)
    (mask : ℤ × ℤ → Bool) (grid : Box2) (sentinel : ℚ)
    (hup : ∀ T x, |update T x| < sentinel) :
    ∀ (l : List (ℤ × ℤ)) (s : FMMState),
      (∀ p, p ∈ gridCells grid → mask p = false → p ∉ s.known →
        p ∉ s.trial → s.T p = sentinel) →
      ∀ v ∈ l, ∀ w, fmmAdj mask grid v w →
        w ∈ (l.foldl (fun st u => fmmRelax update mask grid u st) s).known ∨
        w ∈ (l.foldl (fun st u => fmmRelax update mask grid u st) s).trial := by
  intro l
  induction l with
  | nil =>
      intro s _ v hv
      exact absurd hv (List.not_mem_nil v)
  | cons x l ih =>
      intro s hs v hvl w hadj
      rw [List.foldl_cons]
      rcases List.mem_cons.mp hvl with rfl | hl
      · by_cases hk : w ∈ s.known
        · left
          have f2 := relaxFacts_foldl_relax update mask grid l
            (fmmRelax update mask grid v s)
          have f1 := relaxFacts_relax update mask grid v s
          rw [f2.known_eq, f1.known_eq]
          exact hk
        · right
          have h1 : w ∈ (fmmRelax update mask grid v s).trial := by
            unfold fmmRelax
            exact fmmRelaxFold_progress update mask grid sentinel hup
              (fmmNeighbors v) s w hadj.1 hadj.2.1 hadj.2.2 hk
              (fun hnt => hs w ((mem_gridCells grid w).mpr hadj.2.1)
                hadj.2.2 hk hnt)
          exact (relaxFacts_foldl_relax update mask grid l _).trial_sub h1
      · have f1 := relaxFacts_relax update mask grid x s
        refine ih (fmmRelax update mask grid x s) ?_ v hl w hadj
        intro p hpg hpm hpk hpt
        obtain ⟨hT, hpt'⟩ := f1.T_not_trial p hpt
        rw [hT]
        refine hs p hpg hpm ?_ hpt'
        rw [← f1.known_eq]
        exact hpk

/-- One propagation step (mark the extracted Trial cell Known and relax its
neighbors) preserves the invariant. -/
theorem fmmStep_inv (update : (ℤ × ℤ → ℚ) → ℤ × ℤ → ℚ)
    (mask : ℤ × ℤ → Bool) (grid : Box2) (T0 : ℤ × ℤ → ℚ) (sentinel : ℚ)
    (hup : ∀ T x, |update T x| < sentinel) (s : FMMState) (v : ℤ × ℤ)
    (hv : v ∈ s.trial) (hinv : FMMInv mask grid T0 sentinel s) :
    FMMInv mask grid T0 sentinel
      (fmmRelax update mask grid v
        { known := insert v s.known, trial := s.trial.erase v, T := s.T }) := by
  obtain ⟨hkg, htg, htm, hTm, hsent, hclo⟩ := hinv
  have f := relaxFacts_relax update mask grid v
    { known := insert v s.known, trial := s.trial.erase v, T := s.T }
  refine ⟨?_, ?_, ?_, ?_, ?_, ?_⟩
  · rw [f.known_eq]
    exact Finset.insert_subset (htg hv) hkg
  · intro p hp
    rcases f.trial_mem p hp with h | h
    · exact htg (Finset.mem_of_mem_erase h)
    · exact (mem_gridCells grid p).mpr h.1
  · intro p hp
    rcases f.trial_mem p hp with h | h
    · have hpe := Finset.mem_of_mem_erase h
      have hne : p ≠ v := Finset.ne_of_mem_erase h
      refine ⟨(htm p hpe).1, ?_⟩
      rw [f.known_eq]
      intro hin
      rcases Finset.mem_insert.mp hin with h' | h'
      · exact hne h'
      · exact (htm p hpe).2 h'
    · refine ⟨h.2.1, ?_⟩
      rw [f.known_eq]
      exact h.2.2
  · intro p hm
    rw [f.T_masked p hm]
    exact hTm p hm
  · intro p hpg hpm hpk hpt
    obtain ⟨hT, hpt1⟩ := f.T_not_trial p hpt
    rw [hT]
    rw [f.known_eq] at hpk
    have hpv : p ≠ v := fun he => hpk (he ▸ Finset.mem_insert_self v s.known)
    have hpk0 : p ∉ s.known := fun h => hpk (Finset.mem_insert_of_mem h)
    have hpt0 : p ∉ s.trial := fun h => hpt1 (Finset.mem_erase.mpr ⟨hpv, h⟩)
    exact hsent p hpg hpm hpk0 hpt0
  · intro u hu w hadj
    rw [f.known_eq] at hu
    rcases Finset.mem_insert.mp hu with h' | hu'
    · subst h'
      by_cases hk : w ∈ (fmmRelax update mask grid u
          { known := insert u s.known, trial := s.trial.erase u,
            T := s.T }).known
      · exact Or.inl hk
      · right
        rw [f.known_eq] at hk
        have hwv : w ≠ u := fmmNeighbors_ne u w hadj.1
        unfold fmmRelax
        exact fmmRelaxFold_progress update mask grid sentinel hup
          (fmmNeighbors u) _ w hadj.1 hadj.2.1 hadj.2.2 hk
          (fun hnt => hsent w ((mem_gridCells grid w).mpr hadj.2.1) hadj.2.2
            (fun h => hk (Finset.mem_insert_of_mem h))
            (fun h => hnt (Finset.mem_erase.mpr ⟨hwv, h⟩)))
    · rcases hclo u hu' w hadj with h | h
      · left
        rw [f.known_eq]
        exact Finset.mem_insert_of_mem h
      · by_cases hwv : w = v
        · left
          rw [f.known_eq, hwv]
          exact Finset.mem_insert_self v s.known
        · right
          exact f.trial_sub (Finset.mem_erase.mpr ⟨hwv, h⟩)

/-- One-step unfolding of the propagation loop. -/
theorem fmmLoop_succ (update : (ℤ × ℤ → ℚ) → ℤ × ℤ → ℚ)
    (mask : ℤ × ℤ → Bool) (grid : Box2) (n : ℕ) (s : FMMState) :
    fmmLoop update mask grid (n + 1) s =
      match fmmExtractMin grid s.trial s.T with
      | none => s
      | some v =>
          fmmLoop update mask grid n
            (fmmRelax update mask grid v
              { known := insert v s.known, trial := s.trial.erase v,
                T := s.T }) := rfl

/-- The Known set only grows along the propagation loop. -/
theorem fmmLoop_known_mono (update : (ℤ × ℤ → ℚ) → ℤ × ℤ → ℚ)
    (mask : ℤ × ℤ → Bool) (grid : Box2) :
    ∀ (fuel : ℕ) (s : FMMState),
      s.known ⊆ (fmmLoop update mask grid fuel s).known := by
  intro fuel
  induction fuel with
  | zero => intro s; exact subset_rfl
  | succ n ih =>
      intro s
      rw [fmmLoop_succ]
      cases hx : fmmExtractMin grid s.trial s.T with
      | none => exact subset_rfl
      | some v =>
          refine subset_trans ?_ (ih _)
          have f := relaxFacts_relax update mask grid v
            { known := insert v s.known, trial := s.trial.erase v, T := s.T }
          rw [f.known_eq]
          exact Finset.subset_insert v s.known

/-- The propagation loop preserves the invariant. -/
theorem fmmLoop_inv (update : (ℤ × ℤ → ℚ) → ℤ × ℤ → ℚ)
    (mask : ℤ × ℤ → Bool) (grid : Box2) (T0 : ℤ × ℤ → ℚ) (sentinel : ℚ)
    (hup : ∀ T x, |update T x| < sentinel) :
    ∀ (fuel : ℕ) (s : FMMState), FMMInv mask grid T0 sentinel s →
      FMMInv mask grid T0 sentinel (fmmLoop update mask grid fuel s) := by
  intro fuel
  induction fuel with
  | zero => intro s h; exact h
  | succ n ih =>
      intro s h
      rw [fmmLoop_succ]
      cases hx : fmmExtractMin grid s.trial s.T with
      | none => exact h
      | some v =>
          exact ih _ (fmmStep_inv update mask grid T0 sentinel hup s v
            (fmmExtractMin_mem grid s.trial s.T v hx) h)

/-- With fuel exceeding the number of grid cells not yet Known, the
propagation loop drains the Trial set. -/
theorem fmmLoop_trial_empty (update : (ℤ × ℤ → ℚ) → ℤ × ℤ → ℚ)
    (mask : ℤ × ℤ → Bool) (grid : Box2) (T0 : ℤ × ℤ → ℚ) (sentinel : ℚ)
    (hup : ∀ T x, |update T x| < sentinel) :
    ∀ (fuel : ℕ) (s : FMMState), FMMInv mask grid T0 sentinel s →
      (gridCells grid \ s.known).card < fuel →
      (fmmLoop update mask grid fuel s).trial = ∅ := by
  intro fuel
  induction fuel with
  | zero => intro s _ hc; omega
  | succ n ih =>
      intro s hinv hc
      rw [fmmLoop_succ]
      cases hx : fmmExtractMin grid s.trial s.T with
      | none => exact fmmExtractMin_eq_none grid s.trial s.T hinv.2.1 hx
      | some v =>
          have hv := fmmExtractMin_mem grid s.trial s.T v hx
          refine ih _ (fmmStep_inv update mask grid T0 sentinel hup s v hv
            hinv) ?_
          have f := relaxFacts_relax update mask grid v
            { known := insert v s.known, trial := s.trial.erase v, T := s.T }
          rw [f.known_eq]
          have hvg : v ∈ gridCells grid := hinv.2.1 hv
          have hvk : v ∉ s.known := (hinv.2.2.1 v hv).2
          have hmem : v ∈ gridCells grid \ s.known :=
            Finset.mem_sdiff.mpr ⟨hvg, hvk⟩
          have hsd : gridCells grid \ insert v s.known =
              (gridCells grid \ s.known).erase v := by
            ext p
            simp only [Finset.mem_sdiff, Finset.mem_insert, Finset.mem_erase]
            constructor
            · rintro ⟨hg, hni⟩
              exact ⟨fun he => hni (Or.inl he), hg, fun hk => hni (Or.inr hk)⟩
            · rintro ⟨hne, hg, hnk⟩
              exact ⟨hg, fun h => h.elim hne hnk⟩
          rw [hsd, Finset.card_erase_of_mem hmem]
          have hpos : 0 < (gridCells grid \ s.known).card :=
            Finset.card_pos.mpr ⟨v, hmem⟩
          omega

/-- The initialization establishes the invariant, and every front cell is
Known. -/
theorem fmmInit_inv (update : (ℤ × ℤ → ℚ) → ℤ × ℤ → ℚ)
    (phi T0 : ℤ × ℤ → ℚ) (mask : ℤ × ℤ → Bool) (grid : Box2) (sentinel : ℚ)
    (hup : ∀ T x, |update T x| < sentinel) :
    FMMInv mask grid T0 sentinel (fmmInit update phi T0 mask grid sentinel) ∧
    fmmFrontSet phi mask grid ⊆
      (fmmInit update phi T0 mask grid sentinel).known := by
  have hbaseT : ∀ p, p ∈ gridCells grid → mask p = false →
      p ∉ fmmFrontSet phi mask grid →
      (if Box2.mem grid p && !(mask p) && !(fmmFront phi mask grid p) then
        sentinel else T0 p) = sentinel := by
    intro p hpg hpm hpf
    have hfront : fmmFront phi mask grid p = false := by
      rcases Bool.eq_false_or_eq_true (fmmFront phi mask grid p) with h | h
      · exact absurd (Finset.mem_filter.mpr ⟨hpg, h⟩) hpf
      · exact h
    simp [(mem_gridCells grid p).mp hpg, hpm, hfront]
  have hInitEq : fmmInit update phi T0 mask grid sentinel =
      ((gridList grid).filter (fun p => fmmFront phi mask grid p)).foldl
        (fun st v => fmmRelax update mask grid v st)
        { known := fmmFrontSet phi mask grid, trial := ∅,
          T := fun p =>
            if Box2.mem grid p && !(mask p) && !(fmmFront phi mask grid p) then
              sentinel
            else T0 p } := rfl
  rw [hInitEq]
  have f := relaxFacts_foldl_relax update mask grid
    ((gridList grid).filter (fun p => fmmFront phi mask grid p))
    { known := fmmFrontSet phi mask grid, trial := ∅,
      T := fun p =>
        if Box2.mem grid p && !(mask p) && !(fmmFront phi mask grid p) then
          sentinel
        else T0 p }
  constructor
  · refine ⟨?_, ?_, ?_, ?_, ?_, ?_⟩
    · rw [f.known_eq]
      exact Finset.filter_subset _ _
    · intro p hp
      rcases f.trial_mem p hp with h | h
      · exact absurd h (Finset.not_mem_empty p)
      · exact (mem_gridCells grid p).mpr h.1
    · intro p hp
      rcases f.trial_mem p hp with h | h
      · exact absurd h (Finset.not_mem_empty p)
      · refine ⟨h.2.1, ?_⟩
        rw [f.known_eq]
        exact h.2.2
    · intro p hm
      rw [f.T_masked p hm]
      simp [hm]
    · intro p hpg hpm hpk hpt
      obtain ⟨hT, _⟩ := f.T_not_trial p hpt
      rw [hT]
      refine hbaseT p hpg hpm (fun h => hpk ?_)
      rw [f.known_eq]
      exact h
    · intro u hu w hadj
      refine fmmRelaxMany_closure update mask grid sentinel hup
        ((gridList grid).filter (fun p => fmmFront phi mask grid p)) _ ?_ u ?_
        w hadj
      · intro p hpg hpm hpk hpt
        exact hbaseT p hpg hpm hpk
      · rw [f.known_eq] at hu
        have hu' := Finset.mem_filter.mp hu
        exact List.mem_filter.mpr
          ⟨(mem_gridList grid u).mpr ((mem_gridCells grid u).mp hu'.1), hu'.2⟩
  · intro p hp
    rw [f.known_eq]
    exact hp

/-- C6 (amended): for every run of the modelled Eikonal FMM solver with a
mask supplied, every masked cell retains its input T value on return, and
every cell reachable from an initial-front cell through unmasked grid cells
is marked Known on return (the candidate values produced by the numeric
update are below the Far sentinel, as any finite update is). -/
theorem fmm_masked_frame_and_reachable_known
    (update : (ℤ × ℤ → ℚ) → ℤ × ℤ → ℚ) (phi T0 : ℤ × ℤ → ℚ)
    (mask : ℤ × ℤ → Bool) (grid : Box2) (sentinel : ℚ)
    (hup : ∀ T w, |update T w| < sentinel) :
    (∀ p, mask p = true →
      (solveEikonalEquation2d update phi T0 mask grid sentinel).T p = T0 p) ∧
    (∀ f c, f ∈ fmmFrontSet phi mask grid →
      Relation.ReflTransGen (fmmAdj mask grid) f c →
      c ∈ (solveEikonalEquation2d update phi T0 mask grid sentinel).known) := by
  have hSolveEq : solveEikonalEquation2d update phi T0 mask grid sentinel =
      fmmLoop update mask grid ((gridCells grid).card + 1)
        (fmmInit update phi T0 mask grid sentinel) := rfl
  rw [hSolveEq]
  obtain ⟨hinv0, hfront0⟩ :=
    fmmInit_inv update phi T0 mask grid sentinel hup
  have hinvF := fmmLoop_inv update mask grid T0 sentinel hup
    ((gridCells grid).card + 1) _ hinv0
  have hempty : (fmmLoop update mask grid ((gridCells grid).card + 1)
      (fmmInit update phi T0 mask grid sentinel)).trial = ∅ := by
    apply fmmLoop_trial_empty update mask grid T0 sentinel hup _ _ hinv0
    have h1 : (gridCells grid \
        (fmmInit update phi T0 mask grid sentinel).known).card ≤
        (gridCells grid).card :=
      Finset.card_le_card (Finset.sdiff_subset)
    omega
  have hmono := fmmLoop_known_mono update mask grid
    ((gridCells grid).card + 1) (fmmInit update phi T0 mask grid sentinel)
  constructor
  · intro p hp
    exact hinvF.2.2.2.1 p hp
  · intro f c hf hreach
    induction hreach with
    | refl => exact hmono (hfront0 hf)
    | tail hab hbc ih =>
        rcases hinvF.2.2.2.2.2 _ ih _ hbc with h | h
        · exact h
        · rw [hempty] at h
          exact absurd h (Finset.not_mem_empty _)

/-- C6 witness: on a two-cell grid whose phi changes sign, the front cell
(0,0) is reachable from itself and ends Known; the hypotheses are discharged
with the zero update and sentinel 1. -/
theorem fmm_masked_frame_and_reachable_known_witness :
    ((0 : ℤ), (0 : ℤ)) ∈ (solveEikonalEquation2d (fun _ _ => 0)
      (fun p => if p.1 = 0 then -1 else 1) (fun _ => 0) (fun _ => false)
      ⟨0, 1, 0, 0⟩ 1).known := by
  refine (fmm_masked_frame_and_reachable_known (fun _ _ => 0)
    (fun p => if p.1 = 0 then -1 else 1) (fun _ => 0) (fun _ => false)
    ⟨0, 1, 0, 0⟩ 1 ?_).2 ((0 : ℤ), (0 : ℤ)) ((0 : ℤ), (0 : ℤ)) ?_
    Relation.ReflTransGen.refl
  · intro T w
    norm_num
  · decide

/-- C6 counterexample: the claim as stated fails.  On the one-cell grid with
phi = 1 and a supplied all-zero mask, the sole cell is unmasked and lies in
the grid, yet the solver returns with it not marked Known: there is no sign
change anywhere, so no front exists and the cell is never reached. -/
theorem fmm_unmasked_cell_not_known :
    (fun _ : ℤ × ℤ => false) ((0 : ℤ), (0 : ℤ)) = false ∧
    Box2.mem ⟨0, 0, 0, 0⟩ ((0 : ℤ), (0 : ℤ)) = true ∧
    ((0 : ℤ), (0 : ℤ)) ∉ (solveEikonalEquation2d (fun _ _ => 0) (fun _ => 1)
      (fun _ => 0) (fun _ => false) ⟨0, 0, 0, 0⟩ 1).known := by
  refine ⟨rfl, by decide, ?_⟩
  decide

/-- C10 witness: the mean of constant one-sided gradients (3,5) and (1,7) on
a one-cell fill box. -/
theorem average_grad_phi_is_componentwise_mean_witness :
    (LSM2D_AVERAGE_GRAD_PHI ⟨fun _ => 3, fun _ => 5, fun _ => 1, fun _ => 7⟩
        ⟨0, 0, 0, 0⟩ ⟨fun _ => 0, fun _ => 0⟩).x (0, 0) = (3 + 1) / 2 ∧
    (LSM2D_AVERAGE_GRAD_PHI ⟨fun _ => 3, fun _ => 5, fun _ => 1, fun _ => 7⟩
        ⟨0, 0, 0, 0⟩ ⟨fun _ => 0, fun _ => 0⟩).y (0, 0) = (5 + 7) / 2 :=
  average_grad_phi_is_componentwise_mean
    ⟨fun _ => 3, fun _ => 5, fun _ => 1, fun _ => 7⟩ ⟨0, 0, 0, 0⟩
    ⟨fun _ => 0, fun _ => 0⟩ (0, 0) (by decide)

end LSMLIB
